import Mathlib

/-!
# Verification of the dino_ventures ledger core

A shallow embedding of the ledger posting engine
(`app/services/ledger.py`, `app/models.py`, `app/exceptions.py`,
`app/routers/wallet.py`) together with proofs of the spec's claims.

The data model mirrors the SQLAlchemy models (timestamps omitted: no
claim refers to them).  `LedgerService.process_transaction` is embedded
as the pure function `process` over an explicit store state; the
router's commit-on-success / rollback-on-exception discipline
(`app/routers/wallet.py`, `app/database.py`: the session is closed
without commit whenever `process_transaction` raises) is embedded as
`processState`, which keeps the pre-call state on any error.  The store
operations that `process_transaction` issues before mutating anything
(the idempotency lookup and the `SELECT ... FOR UPDATE` lock
acquisition) are recorded in an event trace so that ordering claims
("before any lock is attempted") are statable.
-/

namespace DinoVentures

/-- `TransactionType` from `app/models.py`. -/
inductive TransactionType where
  | topup
  | purchase
  | bonus
  | refund
deriving DecidableEq, Repr

/-- `Account` from `app/models.py`: id, nullable user id, name, currency,
signed balance, optimistic-lock version counter. -/
structure Account where
  id : Nat
  userId : Option Nat
  name : String
  currency : String
  balance : Int
  version : Nat
deriving DecidableEq, Repr

/-- `Transaction` from `app/models.py`: id, unique reference id
(idempotency key), type, description. -/
structure Transaction where
  id : Nat
  referenceId : String
  type : TransactionType
  description : String
deriving DecidableEq, Repr

/-- `Posting` from `app/models.py`: one signed entry against one account,
belonging to one transaction. -/
structure Posting where
  id : Nat
  transactionId : Nat
  accountId : Nat
  amount : Int
deriving DecidableEq, Repr

/-- The committed store state: the three tables, plus the primary-key
counters the database would use to assign fresh ids. -/
structure LedgerState where
  accounts : List Account
  transactions : List Transaction
  postings : List Posting
  nextTxId : Nat
  nextPostingId : Nat
deriving DecidableEq, Repr

/-- The error taxonomy of `app/exceptions.py` plus the `ValueError`
raised for entries that do not sum to zero (`UnbalancedEntries` in the
spec's taxonomy), carrying the data each Python exception carries. -/
inductive LedgerError where
  | unbalancedEntries (total : Int)
  | duplicateReference (referenceId : String)
  | accountNotFound (accountId : Nat)
  | insufficientFunds (accountId : Nat)
deriving DecidableEq, Repr

/-- Store operations `process_transaction` issues before any mutation:
the idempotency lookup and the `SELECT ... FOR UPDATE` lock acquisition. -/
inductive Event where
  | txLookup (referenceId : String)
  | lockAccounts (ids : List Nat)
deriving DecidableEq, Repr

/-- One call to `process_transaction`: its arguments. -/
structure Call where
  referenceId : String
  type : TransactionType
  description : String
  entries : List (Nat × Int)
deriving DecidableEq, Repr

/-- The exemption list of `ledger.py` line 113:
`account.name not in ["Equity", "Treasury"]`. -/
def exemptNames : List String := ["Equity", "Treasury"]

/-- `sum(amount for _, amount in entries)` (`ledger.py` line 65). -/
def entriesSum (entries : List (Nat × Int)) : Int :=
  (entries.map Prod.snd).sum

/-- Sum of the amounts of the entries that target account `i`
(the net effect of `entries` on account `i`). -/
def entrySumFor (entries : List (Nat × Int)) (i : Nat) : Int :=
  ((entries.filter (fun e => e.1 == i)).map Prod.snd).sum

/-- Sum of the amounts of the postings that reference account `i`. -/
def postingSum (ps : List Posting) (i : Nat) : Int :=
  ((ps.filter (fun p => p.accountId == i)).map Posting.amount).sum

/-- Row lookup by primary key: `select(Account).where(Account.id == i)`,
`scalar_one_or_none`. -/
def findAccount (accs : List Account) (i : Nat) : Option Account :=
  accs.find? (fun a => a.id == i)

/-- Writing an account's new balance: the ORM mutation
`account.balance = new_balance` (`ledger.py` line 116). -/
def updateBalance (accs : List Account) (i : Nat) (newBal : Int) : List Account :=
  accs.map (fun a => if a.id = i then { a with balance := newBal } else a)

/-- Insert `x` into an ascending duplicate-free list, keeping it so. -/
def insertAsc (x : Nat) : List Nat → List Nat
  | [] => [x]
  | y :: ys =>
    if x < y then x :: y :: ys
    else if x = y then y :: ys
    else y :: insertAsc x ys

/-- `sorted(list(set(l)))` (`ledger.py` line 78): the distinct elements
of `l` in ascending order. -/
def sortedDedup (l : List Nat) : List Nat :=
  l.foldr insertAsc []

/-- The loop of `ledger.py` lines 102-123, acting on the session's
working copy of the account rows: for each entry in order, read the
(session-current) balance, check the non-negative rule against the
exemption list, write the new balance and stage one posting.  Returns
the mutated account rows, the staged postings and the next posting id.
The `none` branch of the lookup mirrors the `KeyError` a missing map
entry would raise; it is unreachable when step 3's existence check
passed. -/
def applyEntries (accs : List Account) (txId : Nat) (pid : Nat) :
    List (Nat × Int) → Except LedgerError (List Account × List Posting × Nat)
  | [] => .ok (accs, [], pid)
  | (accId, amount) :: rest =>
    match findAccount accs accId with
    | none => .error (.accountNotFound accId)
    | some account =>
      let newBalance := account.balance + amount
      if newBalance < 0 ∧ account.name ∉ exemptNames then
        .error (.insufficientFunds accId)
      else
        match applyEntries (updateBalance accs accId newBalance) txId (pid + 1) rest with
        | .error e => .error e
        | .ok (accs', ps, pid') =>
          .ok (accs', ⟨pid, txId, accId, amount⟩ :: ps, pid')

/-- `LedgerService.process_transaction` (`ledger.py` lines 35-125), as
the session-level computation: the staged checks in source order
(zero-sum validation, idempotency lookup, canonical-order lock and
account-existence check, transaction insert, then the posting loop),
returning the would-be-committed state and created transaction record on
success, the raised error otherwise, paired with the trace of store
operations issued before the first mutation.  The missing-account check
(`len(accounts) != len(unique_account_ids)`, lines 85-88) is embedded as
the sorted list of requested ids that no row matches; the error carries
its head, the least missing id. -/
def process (s : LedgerState) (c : Call) :
    Except LedgerError (LedgerState × Transaction) × List Event :=
  -- 1. Validate double entry rule (line 65)
  let total := entriesSum c.entries
  if total ≠ 0 then
    (.error (.unbalancedEntries total), [])
  else
    -- 2. Idempotency check (lines 70-74)
    match s.transactions.find? (fun t => t.referenceId == c.referenceId) with
    | some _ => (.error (.duplicateReference c.referenceId), [.txLookup c.referenceId])
    | none =>
      -- 3. Locking & account validation (lines 78-88)
      let ids := sortedDedup (c.entries.map Prod.fst)
      let trace := [Event.txLookup c.referenceId, Event.lockAccounts ids]
      match ids.filter (fun i => (findAccount s.accounts i).isNone) with
      | m :: _ => (.error (.accountNotFound m), trace)
      | [] =>
        -- 4. Create transaction record (lines 93-99)
        let tx : Transaction := ⟨s.nextTxId, c.referenceId, c.type, c.description⟩
        -- 5. Create postings and update balances (lines 102-123)
        match applyEntries s.accounts s.nextTxId s.nextPostingId c.entries with
        | .error e => (.error e, trace)
        | .ok (accs', ps, pid') =>
          (.ok ({ accounts := accs'
                  transactions := s.transactions ++ [tx]
                  postings := s.postings ++ ps
                  nextTxId := s.nextTxId + 1
                  nextPostingId := pid' }, tx), trace)

/-- The committed state after one request (`app/routers/wallet.py`:
`await db.commit()` only on success; an exception reaches the handler or
FastAPI, and `get_db` closes the session without commit, rolling the
database transaction back). -/
def processState (s : LedgerState) (c : Call) : LedgerState :=
  match (process s c).1 with
  | .ok (s', _) => s'
  | .error _ => s

/-- The committed states of a sequence of requests. -/
def runCalls (s : LedgerState) : List Call → LedgerState
  | [] => s
  | c :: cs => runCalls (processState s c) cs

/-- Well-formedness the database schema enforces: account primary keys
are distinct, and every stored transaction id and posting-owned
transaction id is below the id counter (primary keys are
assigned ascending). -/
def WFState (s : LedgerState) : Prop :=
  (s.accounts.map Account.id).Nodup ∧
  (∀ t ∈ s.transactions, t.id < s.nextTxId) ∧
  (∀ p ∈ s.postings, p.transactionId < s.nextTxId)

instance (s : LedgerState) : Decidable (WFState s) := by
  unfold WFState; infer_instance

/-- The balance-derivation invariant (spec §3, §8): every account's
stored balance is the sum of the amounts of the postings referencing it. -/
def BalancesDerived (s : LedgerState) : Prop :=
  ∀ a ∈ s.accounts, a.balance = postingSum s.postings a.id

instance (s : LedgerState) : Decidable (BalancesDerived s) := by
  unfold BalancesDerived; infer_instance

/-- The non-negative floor invariant (spec §8): every account whose name
is not exempt has a non-negative balance. -/
def NonNegFloor (s : LedgerState) : Prop :=
  ∀ a ∈ s.accounts, a.name ∉ exemptNames → 0 ≤ a.balance

instance (s : LedgerState) : Decidable (NonNegFloor s) := by
  unfold NonNegFloor; infer_instance

/-! ## Basic lemmas about the sum and lookup helpers -/

theorem entrySumFor_nil (i : Nat) : entrySumFor [] i = 0 := rfl

theorem entrySumFor_cons (j : Nat) (amt : Int) (rest : List (Nat × Int)) (i : Nat) :
    entrySumFor ((j, amt) :: rest) i = (if j = i then amt else 0) + entrySumFor rest i := by
  simp only [entrySumFor, List.filter_cons]
  by_cases h : j = i <;> simp [h]

theorem postingSum_nil (i : Nat) : postingSum [] i = 0 := rfl

theorem postingSum_cons (p : Posting) (ps : List Posting) (i : Nat) :
    postingSum (p :: ps) i = (if p.accountId = i then p.amount else 0) + postingSum ps i := by
  simp only [postingSum, List.filter_cons]
  by_cases h : p.accountId = i <;> simp [h]

theorem postingSum_append (ps qs : List Posting) (i : Nat) :
    postingSum (ps ++ qs) i = postingSum ps i + postingSum qs i := by
  simp [postingSum, List.filter_append]

theorem findAccount_some {accs : List Account} {i : Nat} {a : Account}
    (h : findAccount accs i = some a) : a.id = i := by
  have := List.find?_some h
  simpa using this

theorem findAccount_mem {accs : List Account} {i : Nat} {a : Account}
    (h : findAccount accs i = some a) : a ∈ accs :=
  List.mem_of_find?_eq_some h

theorem find?_ext {α : Type} (p q : α → Bool) (l : List α)
    (h : ∀ a, p a = q a) : l.find? p = l.find? q := by
  induction l with
  | nil => rfl
  | cons x xs ih =>
    simp only [List.find?_cons, h x, ih]

theorem findAccount_updateBalance (accs : List Account) (j : Nat) (v : Int) (i : Nat) :
    findAccount (updateBalance accs j v) i =
      (findAccount accs i).map (fun a => if a.id = j then { a with balance := v } else a) := by
  unfold findAccount updateBalance
  rw [List.find?_map]
  congr 1
  apply find?_ext
  intro a
  by_cases h : a.id = j <;> simp [h]

theorem mem_findAccount {accs : List Account} {a : Account}
    (hnd : (accs.map Account.id).Nodup) (ha : a ∈ accs) :
    findAccount accs a.id = some a := by
  induction accs with
  | nil => cases ha
  | cons b bs ih =>
    simp only [List.map_cons, List.nodup_cons] at hnd
    rcases List.mem_cons.mp ha with h | h
    · subst h
      simp [findAccount, List.find?_cons]
    · have hne : b.id ≠ a.id := by
        intro he
        exact hnd.1 (he ▸ (List.mem_map.mpr ⟨a, h, rfl⟩))
      simp only [findAccount, List.find?_cons]
      have : (b.id == a.id) = false := by
        simpa using hne
      rw [this]
      exact ih hnd.2 h

/-! ## Lemmas about the canonical lock order `sortedDedup` -/

theorem mem_insertAsc (x y : Nat) (l : List Nat) :
    x ∈ insertAsc y l ↔ x = y ∨ x ∈ l := by
  induction l with
  | nil => simp [insertAsc]
  | cons z zs ih =>
    unfold insertAsc
    by_cases h1 : y < z
    · simp [h1]
    · by_cases h2 : y = z
      · subst h2
        rw [if_neg h1, if_pos rfl]
        simp only [List.mem_cons]
        tauto
      · rw [if_neg h1, if_neg h2]
        simp only [List.mem_cons, ih]
        tauto

theorem sorted_insertAsc (x : Nat) (l : List Nat)
    (h : l.Sorted (· < ·)) : (insertAsc x l).Sorted (· < ·) := by
  induction l with
  | nil => simp [insertAsc]
  | cons z zs ih =>
    rw [List.sorted_cons] at h
    unfold insertAsc
    by_cases h1 : x < z
    · rw [if_pos h1, List.sorted_cons]
      constructor
      · intro b hb
        rcases List.mem_cons.mp hb with hb | hb
        · omega
        · exact lt_trans h1 (h.1 b hb)
      · rw [List.sorted_cons]; exact h
    · by_cases h2 : x = z
      · rw [if_neg h1, if_pos h2, List.sorted_cons]; exact h
      · rw [if_neg h1, if_neg h2, List.sorted_cons]
        constructor
        · intro b hb
          rcases (mem_insertAsc b x zs).mp hb with hb | hb
          · omega
          · exact h.1 b hb
        · exact ih h.2

theorem sortedDedup_sorted (l : List Nat) : (sortedDedup l).Sorted (· < ·) := by
  induction l with
  | nil => simp [sortedDedup]
  | cons x xs ih => exact sorted_insertAsc x _ ih

theorem mem_sortedDedup (x : Nat) (l : List Nat) : x ∈ sortedDedup l ↔ x ∈ l := by
  induction l with
  | nil => simp [sortedDedup]
  | cons y ys ih =>
    simp only [sortedDedup, List.foldr_cons] at *
    rw [mem_insertAsc, ih, List.mem_cons]

/-! ## Lemmas about the posting loop `applyEntries` -/

theorem applyEntries_find {accs accs' : List Account} {txId pid pid' : Nat}
    {es : List (Nat × Int)} {ps : List Posting}
    (h : applyEntries accs txId pid es = .ok (accs', ps, pid')) (i : Nat) :
    findAccount accs' i =
      (findAccount accs i).map
        (fun a => { a with balance := a.balance + entrySumFor es i }) := by
  induction es generalizing accs pid ps with
  | nil =>
    simp only [applyEntries, Except.ok.injEq, Prod.mk.injEq] at h
    obtain ⟨h1, h2, h3⟩ := h
    subst h1
    cases hfa : findAccount accs i with
    | none => simp
    | some a => simp [entrySumFor_nil]
  | cons e rest ih =>
    obtain ⟨j, amt⟩ := e
    simp only [applyEntries] at h
    cases hfj : findAccount accs j with
    | none => rw [hfj] at h; simp at h
    | some account =>
      rw [hfj] at h
      simp only at h
      split at h
      · simp at h
      · split at h
        · simp at h
        · rename_i accs₁ ps₁ pid₁ heq
          simp only [Except.ok.injEq, Prod.mk.injEq] at h
          obtain ⟨h1, h2, h3⟩ := h
          subst h1
          subst h3
          rw [ih heq, findAccount_updateBalance, Option.map_map]
          cases hfa : findAccount accs i with
          | none => simp
          | some a =>
            have haid : a.id = i := findAccount_some hfa
            simp only [Option.map_some', Option.some.injEq, Function.comp]
            by_cases hij : i = j
            · subst hij
              rw [hfj] at hfa
              have haa : account = a := by injection hfa
              subst haa
              rw [if_pos haid]
              simp only [entrySumFor_cons, eq_self_iff_true, if_true]
              simp only [Account.mk.injEq, true_and, and_true]
              omega
            · have : a.id ≠ j := by rw [haid]; exact hij
              rw [if_neg this]
              simp only [entrySumFor_cons]
              rw [if_neg (fun hji => hij hji.symm)]
              simp only [Account.mk.injEq, true_and, and_true]
              omega

/-- Every account field except the balance, as one tuple: the frame the
posting loop must not touch. -/
def accInfo (a : Account) : Nat × Option Nat × String × String × Nat :=
  (a.id, a.userId, a.name, a.currency, a.version)

theorem updateBalance_accInfo (accs : List Account) (j : Nat) (v : Int) :
    (updateBalance accs j v).map accInfo = accs.map accInfo := by
  unfold updateBalance
  rw [List.map_map]
  apply List.map_congr_left
  intro a _
  by_cases h : a.id = j <;> simp [accInfo, h]

theorem applyEntries_accInfo {accs accs' : List Account} {txId pid pid' : Nat}
    {es : List (Nat × Int)} {ps : List Posting}
    (h : applyEntries accs txId pid es = .ok (accs', ps, pid')) :
    accs'.map accInfo = accs.map accInfo := by
  induction es generalizing accs pid ps with
  | nil =>
    simp only [applyEntries, Except.ok.injEq, Prod.mk.injEq] at h
    rw [h.1]
  | cons e rest ih =>
    obtain ⟨j, amt⟩ := e
    simp only [applyEntries] at h
    cases hfj : findAccount accs j with
    | none => rw [hfj] at h; simp at h
    | some account =>
      rw [hfj] at h
      simp only at h
      split at h
      · simp at h
      · split at h
        · simp at h
        · rename_i accs₁ ps₁ pid₁ heq
          simp only [Except.ok.injEq, Prod.mk.injEq] at h
          obtain ⟨h1, h2, h3⟩ := h
          subst h1
          subst h3
          rw [ih heq, updateBalance_accInfo]

theorem applyEntries_postings {accs accs' : List Account} {txId pid pid' : Nat}
    {es : List (Nat × Int)} {ps : List Posting}
    (h : applyEntries accs txId pid es = .ok (accs', ps, pid')) :
    ps.map (fun p => (p.accountId, p.amount)) = es ∧ ∀ p ∈ ps, p.transactionId = txId := by
  induction es generalizing accs pid ps with
  | nil =>
    simp only [applyEntries, Except.ok.injEq, Prod.mk.injEq] at h
    obtain ⟨h1, h2, h3⟩ := h
    rw [← h2]
    simp
  | cons e rest ih =>
    obtain ⟨j, amt⟩ := e
    simp only [applyEntries] at h
    cases hfj : findAccount accs j with
    | none => rw [hfj] at h; simp at h
    | some account =>
      rw [hfj] at h
      simp only at h
      split at h
      · simp at h
      · split at h
        · simp at h
        · rename_i accs₁ ps₁ pid₁ heq
          simp only [Except.ok.injEq, Prod.mk.injEq] at h
          obtain ⟨h1, h2, h3⟩ := h
          subst h1
          subst h3
          rw [← h2]
          obtain ⟨ihm, iht⟩ := ih heq
          constructor
          · simp [ihm]
          · intro p hp
            rcases List.mem_cons.mp hp with hp | hp
            · rw [hp]
            · exact iht p hp

theorem applyEntries_no_notFound {accs : List Account} {txId pid : Nat}
    {es : List (Nat × Int)} {e : LedgerError}
    (hall : ∀ j ∈ es.map Prod.fst, (findAccount accs j).isSome)
    (h : applyEntries accs txId pid es = .error e) :
    ∃ k, e = .insufficientFunds k := by
  induction es generalizing accs pid with
  | nil => simp [applyEntries] at h
  | cons ent rest ih =>
    obtain ⟨j, amt⟩ := ent
    simp only [applyEntries] at h
    cases hfj : findAccount accs j with
    | none =>
      have := hall j (by simp)
      rw [hfj] at this
      simp at this
    | some account =>
      rw [hfj] at h
      simp only at h
      split at h
      · simp only [Except.error.injEq] at h
        exact ⟨j, h.symm⟩
      · split at h
        · rename_i e₁ heq
          simp only [Except.error.injEq] at h
          subst h
          refine ih ?_ heq
          intro k hk
          rw [findAccount_updateBalance, Option.isSome_map']
          exact hall k (by simp [hk])
        · simp at h

theorem applyEntries_nonneg {accs accs' : List Account} {txId pid pid' : Nat}
    {es : List (Nat × Int)} {ps : List Posting}
    (h : applyEntries accs txId pid es = .ok (accs', ps, pid')) :
    ∀ i ∈ es.map Prod.fst, ∀ a, findAccount accs' i = some a →
      a.name ∉ exemptNames → 0 ≤ a.balance := by
  induction es generalizing accs pid ps with
  | nil => simp
  | cons ent rest ih =>
    obtain ⟨j, amt⟩ := ent
    simp only [applyEntries] at h
    cases hfj : findAccount accs j with
    | none => rw [hfj] at h; simp at h
    | some account =>
      rw [hfj] at h
      simp only at h
      split at h
      · simp at h
      · rename_i hchk
        split at h
        · simp at h
        · rename_i accs₁ ps₁ pid₁ heq
          simp only [Except.ok.injEq, Prod.mk.injEq] at h
          obtain ⟨h1, h2, h3⟩ := h
          subst h1
          subst h3
          intro i hi a hfa hex
          by_cases hirest : i ∈ rest.map Prod.fst
          · exact ih heq i hirest a hfa hex
          · have hij : i = j := by
              simp only [List.map_cons, List.mem_cons] at hi
              tauto
            subst hij
            rw [applyEntries_find heq i, findAccount_updateBalance, hfj] at hfa
            have hzero : entrySumFor rest i = 0 := by
              unfold entrySumFor
              have hnil : rest.filter (fun e => e.1 == i) = [] := by
                rw [List.filter_eq_nil_iff]
                intro e he hei
                exact hirest (List.mem_map.mpr ⟨e, he, by simpa using hei⟩)
              rw [hnil]
              simp
            have haccid : account.id = i := findAccount_some hfj
            simp only [Option.map_some', Option.some.injEq] at hfa
            rw [if_pos haccid] at hfa
            have hname : a.name = account.name := by rw [← hfa]
            have hbal : a.balance = account.balance + amt + entrySumFor rest i := by
              rw [← hfa]
            have hex' : account.name ∉ exemptNames := hname ▸ hex
            have hnn : 0 ≤ account.balance + amt := by
              rcases not_and_or.mp hchk with hc | hc
              · omega
              · exact absurd hex' (by simpa using hc)
            rw [hbal, hzero]
            omega

theorem postingSum_eq_entrySum {ps : List Posting} {es : List (Nat × Int)}
    (h : ps.map (fun p => (p.accountId, p.amount)) = es) (i : Nat) :
    postingSum ps i = entrySumFor es i := by
  induction ps generalizing es with
  | nil => rw [← h]; rfl
  | cons p rest ih =>
    simp only [List.map_cons] at h
    rw [← h, postingSum_cons, entrySumFor_cons, ih rfl]

/-! ## Characterization of `process` -/

theorem process_error_state {s : LedgerState} {c : Call} {e : LedgerError}
    (h : (process s c).1 = .error e) : processState s c = s := by
  unfold processState
  rw [h]

theorem process_ok_state {s s₁ : LedgerState} {c : Call} {tx : Transaction}
    (h : (process s c).1 = .ok (s₁, tx)) : processState s c = s₁ := by
  unfold processState
  rw [h]

theorem process_unbalanced {s : LedgerState} {c : Call}
    (h : entriesSum c.entries ≠ 0) :
    process s c = (.error (.unbalancedEntries (entriesSum c.entries)), []) := by
  simp only [process]
  rw [if_pos h]

theorem process_dup {s : LedgerState} {c : Call} {t : Transaction}
    (hsum : entriesSum c.entries = 0)
    (ht : s.transactions.find? (fun t => t.referenceId == c.referenceId) = some t) :
    process s c = (.error (.duplicateReference c.referenceId), [.txLookup c.referenceId]) := by
  simp only [process]
  rw [if_neg (by simp [hsum]), ht]

theorem process_ok_elim {s : LedgerState} {c : Call} {s₁ : LedgerState} {tx : Transaction}
    (h : (process s c).1 = .ok (s₁, tx)) :
    entriesSum c.entries = 0 ∧
    s.transactions.find? (fun t => t.referenceId == c.referenceId) = none ∧
    (sortedDedup (c.entries.map Prod.fst)).filter
        (fun i => (findAccount s.accounts i).isNone) = [] ∧
    tx = ⟨s.nextTxId, c.referenceId, c.type, c.description⟩ ∧
    ∃ accs' ps pid',
      applyEntries s.accounts s.nextTxId s.nextPostingId c.entries = .ok (accs', ps, pid') ∧
      s₁ = { accounts := accs'
             transactions := s.transactions ++ [tx]
             postings := s.postings ++ ps
             nextTxId := s.nextTxId + 1
             nextPostingId := pid' } := by
  simp only [process] at h
  split at h
  · simp at h
  · rename_i hsum
    rw [not_not] at hsum
    split at h
    · simp at h
    · rename_i hdup
      split at h
      · simp at h
      · rename_i hmiss
        split at h
        · simp at h
        · rename_i accs' ps pid' happ
          simp only [Except.ok.injEq, Prod.mk.injEq] at h
          obtain ⟨h1, h2⟩ := h
          subst h2
          exact ⟨hsum, hdup, hmiss, rfl, accs', ps, pid', happ, h1.symm⟩

theorem process_ok_intro {s : LedgerState} {c : Call}
    {accs' : List Account} {ps : List Posting} {pid' : Nat}
    (hsum : entriesSum c.entries = 0)
    (hdup : s.transactions.find? (fun t => t.referenceId == c.referenceId) = none)
    (hmiss : (sortedDedup (c.entries.map Prod.fst)).filter
        (fun i => (findAccount s.accounts i).isNone) = [])
    (happ : applyEntries s.accounts s.nextTxId s.nextPostingId c.entries
        = .ok (accs', ps, pid')) :
    (process s c).1 = .ok
      ({ accounts := accs'
         transactions := s.transactions ++ [⟨s.nextTxId, c.referenceId, c.type, c.description⟩]
         postings := s.postings ++ ps
         nextTxId := s.nextTxId + 1
         nextPostingId := pid' }, ⟨s.nextTxId, c.referenceId, c.type, c.description⟩) := by
  simp only [process]
  rw [if_neg (by simp [hsum]), hdup, hmiss, happ]

theorem process_rule_error {s : LedgerState} {c : Call} {e : LedgerError}
    (hsum : entriesSum c.entries = 0)
    (hdup : s.transactions.find? (fun t => t.referenceId == c.referenceId) = none)
    (hmiss : (sortedDedup (c.entries.map Prod.fst)).filter
        (fun i => (findAccount s.accounts i).isNone) = [])
    (happ : applyEntries s.accounts s.nextTxId s.nextPostingId c.entries = .error e) :
    (process s c).1 = .error e := by
  simp only [process]
  rw [if_neg (by simp [hsum]), hdup, hmiss, happ]

theorem process_missing {s : LedgerState} {c : Call} {m : Nat}
    (hsum : entriesSum c.entries = 0)
    (hdup : s.transactions.find? (fun t => t.referenceId == c.referenceId) = none)
    (hm : m ∈ c.entries.map Prod.fst)
    (hnone : findAccount s.accounts m = none) :
    ∃ m', (process s c).1 = .error (.accountNotFound m') ∧
      findAccount s.accounts m' = none ∧ m' ∈ c.entries.map Prod.fst := by
  have hmem : m ∈ (sortedDedup (c.entries.map Prod.fst)).filter
      (fun i => (findAccount s.accounts i).isNone) := by
    rw [List.mem_filter]
    exact ⟨(mem_sortedDedup m _).mpr hm, by rw [hnone]; rfl⟩
  cases hflt : (sortedDedup (c.entries.map Prod.fst)).filter
      (fun i => (findAccount s.accounts i).isNone) with
  | nil => rw [hflt] at hmem; cases hmem
  | cons m' rest =>
    refine ⟨m', ?_, ?_, ?_⟩
    · simp only [process]
      rw [if_neg (by simp [hsum]), hdup, hflt]
    · have : m' ∈ (sortedDedup (c.entries.map Prod.fst)).filter
          (fun i => (findAccount s.accounts i).isNone) := by
        rw [hflt]; exact List.mem_cons_self m' rest
      have := (List.mem_filter.mp this).2
      simpa using this
    · have : m' ∈ (sortedDedup (c.entries.map Prod.fst)).filter
          (fun i => (findAccount s.accounts i).isNone) := by
        rw [hflt]; exact List.mem_cons_self m' rest
      have := (List.mem_filter.mp this).1
      exact (mem_sortedDedup m' _).mp this

/-! ## Preservation lemmas -/

theorem entrySumFor_of_not_mem {es : List (Nat × Int)} {i : Nat}
    (h : i ∉ es.map Prod.fst) : entrySumFor es i = 0 := by
  unfold entrySumFor
  have hnil : es.filter (fun e => e.1 == i) = [] := by
    rw [List.filter_eq_nil_iff]
    intro e he hei
    exact h (List.mem_map.mpr ⟨e, he, by simpa using hei⟩)
  rw [hnil]
  simp

theorem applyEntries_ids {accs accs' : List Account} {txId pid pid' : Nat}
    {es : List (Nat × Int)} {ps : List Posting}
    (h : applyEntries accs txId pid es = .ok (accs', ps, pid')) :
    accs'.map Account.id = accs.map Account.id := by
  have hinfo := applyEntries_accInfo h
  have h1 : accs'.map Account.id = (accs'.map accInfo).map Prod.fst := by
    rw [List.map_map]; rfl
  have h2 : accs.map Account.id = (accs.map accInfo).map Prod.fst := by
    rw [List.map_map]; rfl
  rw [h1, h2, hinfo]

theorem processState_wf {s : LedgerState} {c : Call}
    (hwf : WFState s) : WFState (processState s c) := by
  cases hp : (process s c).1 with
  | error e => rw [process_error_state hp]; exact hwf
  | ok v =>
    obtain ⟨s₁, tx⟩ := v
    rw [process_ok_state hp]
    obtain ⟨hsum, hdup, hmiss, htx, accs', ps, pid', happ, hs₁⟩ := process_ok_elim hp
    obtain ⟨hnd, htxid, hpid⟩ := hwf
    subst hs₁
    refine ⟨?_, ?_, ?_⟩
    · simpa [applyEntries_ids happ] using hnd
    · intro t ht
      rcases List.mem_append.mp ht with ht | ht
      · exact Nat.lt_succ_of_lt (htxid t ht)
      · rw [List.mem_singleton.mp ht, htx]
        exact Nat.lt_succ_self _
    · intro p hp'
      rcases List.mem_append.mp hp' with hp' | hp'
      · exact Nat.lt_succ_of_lt (hpid p hp')
      · rw [(applyEntries_postings happ).2 p hp']
        exact Nat.lt_succ_self _

theorem processState_nonneg {s : LedgerState} {c : Call}
    (hnd : (s.accounts.map Account.id).Nodup)
    (hfl : NonNegFloor s) : NonNegFloor (processState s c) := by
  cases hp : (process s c).1 with
  | error e => rw [process_error_state hp]; exact hfl
  | ok v =>
    obtain ⟨s₁, tx⟩ := v
    rw [process_ok_state hp]
    obtain ⟨hsum, hdup, hmiss, htx, accs', ps, pid', happ, hs₁⟩ := process_ok_elim hp
    subst hs₁
    intro a' ha' hex
    have hnd' : (accs'.map Account.id).Nodup := by
      rw [applyEntries_ids happ]; exact hnd
    have hfa' : findAccount accs' a'.id = some a' := mem_findAccount hnd' ha'
    by_cases hin : a'.id ∈ c.entries.map Prod.fst
    · exact applyEntries_nonneg happ a'.id hin a' hfa' hex
    · rw [applyEntries_find happ a'.id] at hfa'
      cases hfa : findAccount s.accounts a'.id with
      | none => rw [hfa] at hfa'; simp at hfa'
      | some a =>
        rw [hfa] at hfa'
        simp only [Option.map_some', Option.some.injEq] at hfa'
        have hz : entrySumFor c.entries a'.id = 0 := entrySumFor_of_not_mem hin
        have hname : a'.name = a.name := by
          conv_lhs => rw [← hfa']
        have hbal : a'.balance = a.balance + entrySumFor c.entries a'.id := by
          conv_lhs => rw [← hfa']
        rw [hbal, hz]
        have := hfl a (findAccount_mem hfa) (hname ▸ hex)
        omega

theorem processState_derived {s : LedgerState} {c : Call}
    (hnd : (s.accounts.map Account.id).Nodup)
    (hder : BalancesDerived s) : BalancesDerived (processState s c) := by
  cases hp : (process s c).1 with
  | error e => rw [process_error_state hp]; exact hder
  | ok v =>
    obtain ⟨s₁, tx⟩ := v
    rw [process_ok_state hp]
    obtain ⟨hsum, hdup, hmiss, htx, accs', ps, pid', happ, hs₁⟩ := process_ok_elim hp
    subst hs₁
    intro a' ha'
    have hnd' : (accs'.map Account.id).Nodup := by
      rw [applyEntries_ids happ]; exact hnd
    have hfa' : findAccount accs' a'.id = some a' := mem_findAccount hnd' ha'
    rw [applyEntries_find happ a'.id] at hfa'
    cases hfa : findAccount s.accounts a'.id with
    | none => rw [hfa] at hfa'; simp at hfa'
    | some a =>
      rw [hfa] at hfa'
      simp only [Option.map_some', Option.some.injEq] at hfa'
      have hbal : a'.balance = a.balance + entrySumFor c.entries a'.id := by
        conv_lhs => rw [← hfa']
      have haid : a.id = a'.id := findAccount_some hfa
      have hold : a.balance = postingSum s.postings a'.id := by
        rw [← haid]
        exact hder a (findAccount_mem hfa)
      simp only [postingSum_append, hbal, hold,
        postingSum_eq_entrySum (applyEntries_postings happ).1 a'.id]

theorem processState_nodup {s : LedgerState} {c : Call}
    (hnd : (s.accounts.map Account.id).Nodup) :
    ((processState s c).accounts.map Account.id).Nodup := by
  cases hp : (process s c).1 with
  | error e => rw [process_error_state hp]; exact hnd
  | ok v =>
    obtain ⟨s₁, tx⟩ := v
    rw [process_ok_state hp]
    obtain ⟨_, _, _, _, accs', ps, pid', happ, hs₁⟩ := process_ok_elim hp
    subst hs₁
    simpa only [applyEntries_ids happ] using hnd

theorem process_trace_lock {s : LedgerState} {c : Call} {ids : List Nat}
    (h : Event.lockAccounts ids ∈ (process s c).2) :
    ids = sortedDedup (c.entries.map Prod.fst) := by
  simp only [process] at h
  split at h
  · simp at h
  · split at h
    · simp at h
    · split at h
      · simp at h
        exact h
      · split at h <;>
        · simp at h
          exact h

/-- A two-phase-locking thread that still has to acquire the locks in
`rem` and is blocked because the other thread holds `rem`'s next lock. -/
def Blocked (otherHeld rem : List Nat) : Prop :=
  ∃ a, rem.head? = some a ∧ a ∈ otherHeld

instance (otherHeld rem : List Nat) : Decidable (Blocked otherHeld rem) := by
  unfold Blocked; infer_instance

/-- The per-account running-balance condition the posting loop enforces:
at every prefix of the entry list, the targeted account's balance after
that prefix is non-negative unless the account is exempt. -/
def PrefixOk (accs : List Account) (es : List (Nat × Int)) : Prop :=
  ∀ pre i amt post, es = pre ++ (i, amt) :: post →
    ∀ a, findAccount accs i = some a → a.name ∉ exemptNames →
      0 ≤ a.balance + entrySumFor (pre ++ [(i, amt)]) i

theorem findAccount_update_entry {accs : List Account} {j i : Nat} {acc a : Account}
    (hacc : findAccount accs j = some acc) (hfa : findAccount accs i = some a) (amt : Int) :
    findAccount (updateBalance accs j (acc.balance + amt)) i =
      some { a with balance := a.balance + (if j = i then amt else 0) } := by
  rw [findAccount_updateBalance, hfa]
  simp only [Option.map_some']
  have haid : a.id = i := findAccount_some hfa
  by_cases hij : i = j
  · subst hij
    rw [hacc] at hfa
    have hae : acc = a := by injection hfa
    subst hae
    rw [if_pos haid, if_pos rfl]
  · rw [if_neg (by rw [haid]; exact hij), if_neg (fun h => hij h.symm)]
    rw [show a.balance + (0 : Int) = a.balance from add_zero _]

theorem applyEntries_ok_iff {accs : List Account} {txId pid : Nat} {es : List (Nat × Int)}
    (hall : ∀ m ∈ es.map Prod.fst, (findAccount accs m).isSome) :
    (∃ accs' ps pid', applyEntries accs txId pid es = .ok (accs', ps, pid')) ↔
    PrefixOk accs es := by
  induction es generalizing accs pid with
  | nil =>
    constructor
    · intro _ pre i amt post hsplit
      exact absurd hsplit (by simp)
    · intro _
      exact ⟨accs, [], pid, rfl⟩
  | cons ent rest ih =>
    obtain ⟨j, amt⟩ := ent
    have hjsome : (findAccount accs j).isSome := hall j (by simp)
    obtain ⟨acc, hacc⟩ := Option.isSome_iff_exists.mp hjsome
    by_cases hchk : acc.balance + amt < 0 ∧ acc.name ∉ exemptNames
    · constructor
      · rintro ⟨accs', ps, pid', hok⟩
        simp only [applyEntries, hacc] at hok
        rw [if_pos hchk] at hok
        simp at hok
      · intro hpre
        have hh := hpre [] j amt rest rfl acc hacc hchk.2
        rw [List.nil_append, entrySumFor_cons, if_pos rfl, entrySumFor_nil] at hh
        exact absurd hh (by omega)
    · have hupd : ∀ m ∈ rest.map Prod.fst,
          (findAccount (updateBalance accs j (acc.balance + amt)) m).isSome := by
        intro m hm
        rw [findAccount_updateBalance, Option.isSome_map']
        exact hall m (by simp [hm])
      have hiff := @ih (updateBalance accs j (acc.balance + amt)) (pid + 1) hupd
      constructor
      · rintro ⟨accs', ps, pid', hok⟩
        simp only [applyEntries, hacc] at hok
        rw [if_neg hchk] at hok
        have hex : ∃ a' p' i', applyEntries (updateBalance accs j (acc.balance + amt))
            txId (pid + 1) rest = .ok (a', p', i') := by
          cases hr : applyEntries (updateBalance accs j (acc.balance + amt))
              txId (pid + 1) rest with
          | error e => rw [hr] at hok; simp at hok
          | ok v =>
            obtain ⟨a1, b1, c1⟩ := v
            exact ⟨a1, b1, c1, rfl⟩
        have hprest : PrefixOk (updateBalance accs j (acc.balance + amt)) rest :=
          hiff.mp hex
        intro pre i amt' post hsplit a hfa hexm
        cases pre with
        | nil =>
          simp only [List.nil_append, List.cons.injEq, Prod.mk.injEq] at hsplit
          obtain ⟨⟨hji, hamt⟩, hrp⟩ := hsplit
          subst hji
          subst hamt
          rw [hacc] at hfa
          have hae : acc = a := by injection hfa
          subst hae
          rw [List.nil_append, entrySumFor_cons, if_pos rfl, entrySumFor_nil]
          rcases not_and_or.mp hchk with hc | hc
          · omega
          · exact absurd hexm (by simpa using hc)
        | cons e0 pre' =>
          simp only [List.cons_append, List.cons.injEq] at hsplit
          obtain ⟨he0, hrest⟩ := hsplit
          have hfa₁ := findAccount_update_entry hacc hfa amt'
          have hfaup : findAccount (updateBalance accs j (acc.balance + amt)) i =
              some { a with balance := a.balance + (if j = i then amt else 0) } :=
            findAccount_update_entry hacc hfa amt
          have hh := hprest pre' i amt' post hrest
            { a with balance := a.balance + (if j = i then amt else 0) } hfaup
            (by simpa using hexm)
          simp only at hh
          rw [← he0, List.cons_append, entrySumFor_cons]
          by_cases hji : j = i
          · rw [if_pos hji] at hh ⊢
            omega
          · rw [if_neg hji] at hh ⊢
            omega
      · intro hpre
        have hprest : PrefixOk (updateBalance accs j (acc.balance + amt)) rest := by
          intro pre' i amt' post hsplit a₁ hfa₁ hexm
          have himem : i ∈ rest.map Prod.fst := by
            rw [hsplit]
            simp
          have hisome : (findAccount accs i).isSome := hall i (by simp [himem])
          obtain ⟨a, hfa⟩ := Option.isSome_iff_exists.mp hisome
          have hfaup : findAccount (updateBalance accs j (acc.balance + amt)) i =
              some { a with balance := a.balance + (if j = i then amt else 0) } :=
            findAccount_update_entry hacc hfa amt
          rw [hfaup] at hfa₁
          have ha₁ : { a with balance := a.balance + (if j = i then amt else 0) } = a₁ := by
            injection hfa₁
          have hh := hpre ((j, amt) :: pre') i amt' post
            (by rw [hsplit, List.cons_append]) a hfa
            (by rw [← ha₁] at hexm; simpa using hexm)
          rw [List.cons_append, entrySumFor_cons] at hh
          rw [← ha₁]
          simp only
          by_cases hji : j = i
          · rw [if_pos hji] at hh ⊢
            omega
          · rw [if_neg hji] at hh ⊢
            omega
        obtain ⟨a', p', i', hr⟩ := hiff.mpr hprest
        refine ⟨a', ⟨pid, txId, j, amt⟩ :: p', i', ?_⟩
        simp only [applyEntries, hacc]
        rw [if_neg hchk, hr]

theorem missing_nil_of_all_found {s : LedgerState} {c : Call}
    (hall : ∀ m ∈ c.entries.map Prod.fst, (findAccount s.accounts m).isSome) :
    (sortedDedup (c.entries.map Prod.fst)).filter
      (fun i => (findAccount s.accounts i).isNone) = [] := by
  rw [List.filter_eq_nil_iff]
  intro x hx
  have hs := hall x ((mem_sortedDedup x _).mp hx)
  cases hfx : findAccount s.accounts x with
  | none => rw [hfx] at hs; simp at hs
  | some y => simp [hfx]

/-! ## Concrete states and calls used to exercise the theorems -/

/-- A store with the two accounts of the spec's scenarios: the exempt
system account `Treasury` and a user wallet holding 30. -/
def sampleState : LedgerState :=
  { accounts := [⟨1, none, "Treasury", "GOLD", 1000000, 0⟩,
                 ⟨2, some 1, "Wallet", "GOLD", 30, 0⟩]
    transactions := []
    postings := []
    nextTxId := 1
    nextPostingId := 1 }

/-- `sampleState` after a transaction with reference id `r1` exists. -/
def dupState : LedgerState :=
  { sampleState with transactions := [⟨0, "r1", .topup, "first"⟩] }

/-- A store whose balances are derived from its postings. -/
def derivedState : LedgerState :=
  { accounts := [⟨1, none, "Treasury", "GOLD", 100, 0⟩,
                 ⟨2, some 1, "Wallet", "GOLD", 30, 0⟩]
    transactions := [⟨0, "genesis", .topup, "seed"⟩]
    postings := [⟨0, 0, 1, 100⟩, ⟨1, 0, 2, 30⟩]
    nextTxId := 1
    nextPostingId := 2 }

def cTop : Call := ⟨"r1", .topup, "Wallet Top-up", [(1, -100), (2, 100)]⟩

def cSpend : Call := ⟨"r2", .purchase, "Purchase Item", [(2, -50), (1, 50)]⟩

def cUnbal : Call := ⟨"r3", .topup, "x", [(1, 10), (2, -5)]⟩

def cMissing : Call := ⟨"r4", .topup, "x", [(1, 5), (999, -5)]⟩

def cNetZero : Call := ⟨"r5", .topup, "net-zero", [(2, -45), (2, 45)]⟩

def cPrefixCall : Call := ⟨"r6", .topup, "y", [(2, 45), (2, -45)]⟩

def cDupUnbal : Call := ⟨"r1", .topup, "again", [(1, 5)]⟩

def cDupBal : Call := ⟨"r1", .topup, "again", [(1, 5), (2, -5)]⟩

def cW : Call := ⟨"w1", .topup, "w", [(1, -10), (2, 10)]⟩

def cLock1 : Call := ⟨"La", .topup, "x", [(1, -5), (2, 5)]⟩

def cLock2 : Call := ⟨"Lb", .topup, "x", [(2, -5), (1, 5)]⟩

/-! ## The claims -/

/-- Claim C8: for every entry list whose signed amounts do not sum to
zero exactly, `process` fails with the unbalanced-entries error carrying
the observed sum, the trace of store operations is empty (the failure
occurs before the idempotency lookup and before any lock acquisition),
and the committed state is unchanged. -/
theorem process_unbalanced_first (s : LedgerState) (c : Call)
    (h : entriesSum c.entries ≠ 0) :
    (process s c).1 = .error (.unbalancedEntries (entriesSum c.entries)) ∧
    (process s c).2 = [] ∧ processState s c = s := by
  have hp := process_unbalanced (s := s) h
  exact ⟨by rw [hp], by rw [hp], process_error_state (by rw [hp])⟩

/-- Witness for C8: entries `[(1, 10), (2, -5)]` fail with observed sum 5
and an empty store-operation trace. -/
theorem process_unbalanced_first_witness :
    entriesSum cUnbal.entries = 5 ∧
    (process sampleState cUnbal).1 = .error (.unbalancedEntries 5) ∧
    (process sampleState cUnbal).2 = [] ∧
    processState sampleState cUnbal = sampleState := by
  have h := process_unbalanced_first sampleState cUnbal (by decide)
  exact ⟨by decide, h.1, h.2.1, h.2.2⟩

/-- Claim C7 is false on the code: with a duplicate reference id and
entries summing to 5, `process_transaction` raises the unbalanced
`ValueError`, not `IdempotencyError` — the zero-sum validation (step 1
in the code) precedes the idempotency check (step 2). -/
theorem process_idem_first_cex :
    (∃ t ∈ dupState.transactions, t.referenceId = cDupUnbal.referenceId) ∧
    (process dupState cDupUnbal).1 = .error (.unbalancedEntries 5) ∧
    (process dupState cDupUnbal).1 ≠ .error (.duplicateReference cDupUnbal.referenceId) := by
  refine ⟨⟨⟨0, "r1", .topup, "first"⟩, by decide, rfl⟩, rfl, ?_⟩
  intro h
  rw [show (process dupState cDupUnbal).1 = .error (.unbalancedEntries 5) from rfl] at h
  simp only [Except.error.injEq] at h
  exact absurd h (by decide)

/-- Claim C7 (amended): the zero-sum validation is step 1 of
`process_transaction` and the idempotency check is step 2: a call whose
reference id already names an existing transaction fails with
`DuplicateReference` provided its entries sum to zero; when they do not,
the unbalanced-entries failure takes precedence. -/
theorem process_check_order (s : LedgerState) (c : Call) :
    (entriesSum c.entries = 0 →
      (∃ t ∈ s.transactions, t.referenceId = c.referenceId) →
      (process s c).1 = .error (.duplicateReference c.referenceId)) ∧
    (entriesSum c.entries ≠ 0 →
      (process s c).1 = .error (.unbalancedEntries (entriesSum c.entries))) := by
  constructor
  · rintro hsum ⟨t, ht, hr⟩
    cases hf : s.transactions.find? (fun t => t.referenceId == c.referenceId) with
    | none =>
      rw [List.find?_eq_none] at hf
      have := hf t ht
      simp [hr] at this
    | some t' =>
      rw [process_dup hsum hf]
  · intro h
    rw [process_unbalanced h]

/-- Witness for the amended C7: a duplicate reference with zero-sum
entries fails with `DuplicateReference`. -/
theorem process_check_order_witness :
    (process dupState cDupBal).1 = .error (.duplicateReference "r1") :=
  (process_check_order dupState cDupBal).1 (by decide)
    ⟨⟨0, "r1", .topup, "first"⟩, by decide, rfl⟩

/-- Claim C1: if a `process` call succeeds, repeating the very same call
on the resulting state fails with `DuplicateReference` (the
`IdempotencyError`) and commits nothing: the state after the second call
is exactly the state after the first, so every account balance is
unchanged and the balance effects were applied exactly once. -/
theorem process_idempotent (s s₁ : LedgerState) (c : Call) (tx : Transaction)
    (h : (process s c).1 = .ok (s₁, tx)) :
    (process s₁ c).1 = .error (.duplicateReference c.referenceId) ∧
    processState s₁ c = s₁ := by
  obtain ⟨hsum, hdup, hmiss, htx, accs', ps, pid', happ, hs₁⟩ := process_ok_elim h
  have hdup2 : ∃ t ∈ s₁.transactions, t.referenceId = c.referenceId := by
    rw [hs₁]
    exact ⟨tx, by simp, by rw [htx]⟩
  cases hf : s₁.transactions.find? (fun t => t.referenceId == c.referenceId) with
  | none =>
    rw [List.find?_eq_none] at hf
    obtain ⟨t, ht, hr⟩ := hdup2
    have := hf t ht
    simp [hr] at this
  | some t' =>
    have hp := process_dup hsum hf
    exact ⟨by rw [hp], process_error_state (by rw [hp])⟩

/-- Witness for C1: the scenario-1 top-up succeeds on `sampleState`;
repeating it fails with `DuplicateReference r1` and changes nothing. -/
theorem process_idempotent_witness :
    (process (processState sampleState cTop) cTop).1
      = .error (.duplicateReference "r1") ∧
    processState (processState sampleState cTop) cTop
      = processState sampleState cTop :=
  process_idempotent sampleState (processState sampleState cTop) cTop
    ⟨1, "r1", TransactionType.topup, "Wallet Top-up"⟩ rfl

/-- Claim C5: whenever `process` fails — with any of the four errors —
the committed state is exactly the pre-call state (the router commits
only on success, so no Transaction row, Posting row or account balance
reflects partial application); in particular an unknown account id among
the entries of an otherwise well-formed call causes `AccountNotFound`
for a missing id with zero mutation. -/
theorem process_atomic_failure (s : LedgerState) (c : Call) :
    (∀ e, (process s c).1 = .error e → processState s c = s) ∧
    (entriesSum c.entries = 0 →
      s.transactions.find? (fun t => t.referenceId == c.referenceId) = none →
      ∀ m ∈ c.entries.map Prod.fst, findAccount s.accounts m = none →
      ∃ m', (process s c).1 = .error (.accountNotFound m') ∧
        findAccount s.accounts m' = none ∧ m' ∈ c.entries.map Prod.fst ∧
        processState s c = s) := by
  constructor
  · intro e h
    exact process_error_state h
  · intro hsum hdup m hm hnone
    obtain ⟨m', h1, h2, h3⟩ := process_missing hsum hdup hm hnone
    exact ⟨m', h1, h2, h3, process_error_state h1⟩

/-- Witness for C5: account id 999 does not exist; the call fails with
`AccountNotFound` for a missing id and the state is unchanged. -/
theorem process_atomic_failure_witness :
    ∃ m', (process sampleState cMissing).1 = .error (.accountNotFound m') ∧
      findAccount sampleState.accounts m' = none ∧
      m' ∈ cMissing.entries.map Prod.fst ∧
      processState sampleState cMissing = sampleState :=
  (process_atomic_failure sampleState cMissing).2 (by decide) rfl 999 (by decide) rfl

/-- Claim C2: the non-negative floor.  First conjunct: a `process` call
(accepted or rejected) preserves the invariant that every account whose
name is outside the exemption set `{Equity, Treasury}` has a
non-negative balance.  Second conjunct: a call passing the earlier
stages (zero-sum, fresh reference, all accounts found) whose entries
would leave a non-exempt account's balance negative is rejected with
`InsufficientFunds` and the whole call commits nothing. -/
theorem process_nonneg_floor (s : LedgerState) (c : Call) :
    ((s.accounts.map Account.id).Nodup → NonNegFloor s →
      NonNegFloor (processState s c)) ∧
    (entriesSum c.entries = 0 →
      s.transactions.find? (fun t => t.referenceId == c.referenceId) = none →
      (∀ m ∈ c.entries.map Prod.fst, (findAccount s.accounts m).isSome) →
      ∀ i ∈ c.entries.map Prod.fst, ∀ a, findAccount s.accounts i = some a →
        a.name ∉ exemptNames → a.balance + entrySumFor c.entries i < 0 →
        (∃ k, (process s c).1 = .error (.insufficientFunds k)) ∧
        processState s c = s) := by
  constructor
  · exact fun hnd hfl => processState_nonneg hnd hfl
  · intro hsum hdup hall i hi a hfa hex hneg
    cases happ : applyEntries s.accounts s.nextTxId s.nextPostingId c.entries with
    | ok v =>
      obtain ⟨accs', ps, pid'⟩ := v
      exfalso
      have hfind := applyEntries_find happ i
      rw [hfa] at hfind
      simp only [Option.map_some'] at hfind
      have hge := applyEntries_nonneg happ i hi _ hfind (by simpa using hex)
      simp only at hge
      omega
    | error e =>
      have hproc := process_rule_error hsum hdup (missing_nil_of_all_found hall) happ
      obtain ⟨k, hk⟩ := applyEntries_no_notFound hall happ
      exact ⟨⟨k, by rw [hproc, hk]⟩, process_error_state hproc⟩

/-- Witness for C2: the scenario-3 spend of 50 from a wallet holding 30
fails with `InsufficientFunds` and the state is unchanged. -/
theorem process_nonneg_floor_witness :
    (∃ k, (process sampleState cSpend).1 = .error (.insufficientFunds k)) ∧
    processState sampleState cSpend = sampleState :=
  (process_nonneg_floor sampleState cSpend).2 (by decide) rfl (by decide) 2 (by decide)
    ⟨2, some 1, "Wallet", "GOLD", 30, 0⟩ rfl (by decide) (by decide)

/-- Claim C3: for every accepted `process` call, the postings of the
created transaction record sum to exactly zero (given the schema fact
that stored postings reference transaction ids below the id counter, so
the fresh transaction owns exactly the postings created by this call). -/
theorem process_zero_sum (s : LedgerState) (c : Call) (s₁ : LedgerState) (tx : Transaction)
    (hwf : ∀ p ∈ s.postings, p.transactionId < s.nextTxId)
    (h : (process s c).1 = .ok (s₁, tx)) :
    ((s₁.postings.filter (fun p => p.transactionId == tx.id)).map Posting.amount).sum
      = 0 := by
  obtain ⟨hsum, hdup, hmiss, htx, accs', ps, pid', happ, hs₁⟩ := process_ok_elim h
  subst hs₁
  obtain ⟨hmap, htxid⟩ := applyEntries_postings happ
  have htid : tx.id = s.nextTxId := by rw [htx]
  simp only [List.filter_append]
  have hold : s.postings.filter (fun p => p.transactionId == tx.id) = [] := by
    rw [List.filter_eq_nil_iff]
    intro p hp hbeq
    have hlt := hwf p hp
    have hpe : p.transactionId = tx.id := by simpa using hbeq
    omega
  have hnew : ps.filter (fun p => p.transactionId == tx.id) = ps := by
    rw [List.filter_eq_self]
    intro p hp
    simp [htxid p hp, htid]
  rw [hold, hnew, List.nil_append]
  have hamts : ps.map Posting.amount = c.entries.map Prod.snd := by
    have hm := congrArg (List.map Prod.snd) hmap
    rw [List.map_map] at hm
    exact hm
  rw [hamts]
  exact hsum

/-- Witness for C3: the scenario-1 top-up creates transaction 1 whose
postings sum to zero. -/
theorem process_zero_sum_witness :
    (((processState sampleState cTop).postings.filter
        (fun p => p.transactionId == 1)).map Posting.amount).sum = 0 :=
  process_zero_sum sampleState cTop (processState sampleState cTop)
    ⟨1, "r1", TransactionType.topup, "Wallet Top-up"⟩ (by decide) rfl

/-- Claim C4: from any well-formed state whose balances equal the sum of
the postings referencing each account, every sequence of `process` calls
(each committing on success and rolling back on failure) leads only to
states satisfying the same derivation invariant: each successful call
updates balances by exactly the amounts of the postings it inserts. -/
theorem process_balance_derivation (s : LedgerState) (cs : List Call)
    (hnd : (s.accounts.map Account.id).Nodup)
    (hder : BalancesDerived s) :
    BalancesDerived (runCalls s cs) := by
  induction cs generalizing s with
  | nil => exact hder
  | cons c cs ih =>
    exact ih (processState s c) (processState_nodup hnd) (processState_derived hnd hder)

/-- Witness for C4: a seeded store whose balances derive from its
postings keeps the invariant across a top-up call. -/
theorem process_balance_derivation_witness :
    BalancesDerived (runCalls derivedState [cW]) :=
  process_balance_derivation derivedState [cW] (by decide) (by decide)

/-- Claim C6 is false on the code: on a wallet holding 30, the entries
`[(2, -45), (2, 45)]` have net effect 0 on account 2 (and every account),
yet `process_transaction` rejects the call with `InsufficientFunds(2)`:
the non-negative check runs entry-by-entry against the running balance,
not against the pre-aggregated net effect. -/
theorem process_preaggregate_cex :
    entriesSum cNetZero.entries = 0 ∧
    (∀ i ∈ cNetZero.entries.map Prod.fst, ∀ a,
      findAccount sampleState.accounts i = some a → a.name ∉ exemptNames →
        0 ≤ a.balance + entrySumFor cNetZero.entries i) ∧
    (process sampleState cNetZero).1 = .error (.insufficientFunds 2) :=
  ⟨by decide, by decide, rfl⟩

/-- Claim C6 (amended): for a call passing the earlier stages, the
non-negative check is applied entry-by-entry to the running balance
(which already includes the earlier entries of the same call): the call
is accepted if and only if after every prefix of the entry list the
just-targeted account's running balance is non-negative or exempt.  A
call whose net effect is non-negative can still be rejected when an
intermediate running balance is negative (see the counterexample), and
conversely an entry that alone would overdraw an account is accepted
when earlier entries of the same call cover it. -/
theorem process_running_balance_check (s : LedgerState) (c : Call)
    (hsum : entriesSum c.entries = 0)
    (hdup : s.transactions.find? (fun t => t.referenceId == c.referenceId) = none)
    (hall : ∀ m ∈ c.entries.map Prod.fst, (findAccount s.accounts m).isSome) :
    (∃ s₁ tx, (process s c).1 = .ok (s₁, tx)) ↔ PrefixOk s.accounts c.entries := by
  constructor
  · rintro ⟨s₁, tx, h⟩
    obtain ⟨_, _, _, _, accs', ps, pid', happ, _⟩ := process_ok_elim h
    exact (applyEntries_ok_iff hall).mp ⟨accs', ps, pid', happ⟩
  · intro hpre
    obtain ⟨accs', ps, pid', happ⟩ := (applyEntries_ok_iff hall).mpr hpre
    exact ⟨_, _, process_ok_intro hsum hdup (missing_nil_of_all_found hall) happ⟩

/-- Witness for the amended C6: the running-balance characterization at
a concrete call that credits before debiting the same account. -/
theorem process_running_balance_check_witness :
    (∃ s₁ tx, (process sampleState cPrefixCall).1 = .ok (s₁, tx)) ↔
    PrefixOk sampleState.accounts cPrefixCall.entries :=
  process_running_balance_check sampleState cPrefixCall (by decide) rfl (by decide)

/-- Claim C9: `process_transaction` locks the distinct account ids of its
entries in one canonical ascending order (the trace's lock event carries
exactly the sorted deduplicated id list, which is strictly ascending),
and — the classic resource-ordering argument — two concurrent calls,
each holding a prefix of its canonical lock list and waiting for the
rest, can never block each other simultaneously: no deadlocked
configuration exists, so neither call blocks the other indefinitely. -/
theorem process_lock_order_deadlock_free (c₁ c₂ : Call) :
    (∀ s ids, Event.lockAccounts ids ∈ (process s c₁).2 →
      ids = sortedDedup (c₁.entries.map Prod.fst) ∧ ids.Sorted (· < ·)) ∧
    (∀ held₁ rem₁ held₂ rem₂,
      sortedDedup (c₁.entries.map Prod.fst) = held₁ ++ rem₁ →
      sortedDedup (c₂.entries.map Prod.fst) = held₂ ++ rem₂ →
      ¬(Blocked held₂ rem₁ ∧ Blocked held₁ rem₂)) := by
  constructor
  · intro s ids h
    have he := process_trace_lock h
    exact ⟨he, he ▸ sortedDedup_sorted _⟩
  · rintro held₁ rem₁ held₂ rem₂ h₁ h₂ ⟨⟨a, ha1, ha2⟩, b, hb1, hb2⟩
    have hs₁ : (held₁ ++ rem₁).Pairwise (· < ·) := by
      rw [← h₁]
      exact sortedDedup_sorted _
    have hs₂ : (held₂ ++ rem₂).Pairwise (· < ·) := by
      rw [← h₂]
      exact sortedDedup_sorted _
    have hamem : a ∈ rem₁ := by
      cases rem₁ with
      | nil => simp at ha1
      | cons x xs =>
        simp only [List.head?_cons, Option.some.injEq] at ha1
        rw [← ha1]
        exact List.mem_cons_self x xs
    have hbmem : b ∈ rem₂ := by
      cases rem₂ with
      | nil => simp at hb1
      | cons x xs =>
        simp only [List.head?_cons, Option.some.injEq] at hb1
        rw [← hb1]
        exact List.mem_cons_self x xs
    have hab : a < b := (List.pairwise_append.mp hs₂).2.2 a ha2 b hbmem
    have hba : b < a := (List.pairwise_append.mp hs₁).2.2 b hb2 a hamem
    omega

/-- Witness for C9: two overlapping, differently-ordered calls lock
`[1, 2]` in the same ascending order, and a configuration in which each
call holds its first lock is not deadlocked. -/
theorem process_lock_order_deadlock_free_witness :
    ([1, 2] = sortedDedup (cLock1.entries.map Prod.fst) ∧
      ([1, 2] : List Nat).Sorted (· < ·)) ∧
    ¬(Blocked [1] [2] ∧ Blocked [1] [2]) :=
  ⟨(process_lock_order_deadlock_free cLock1 cLock2).1 sampleState [1, 2] (by decide),
   (process_lock_order_deadlock_free cLock1 cLock2).2 [1] [2] [1] [2] rfl rfl⟩

/-- Claim C10: `process_transaction` never touches the optimistic-lock
version counter: after any call, successful or failed, every account
keeps its id and version (first conjunct), and in fact every field
except the balance (second conjunct: id, user id, name, currency,
version), in the same row order. -/
theorem process_version_frame (s : LedgerState) (c : Call) :
    (processState s c).accounts.map (fun a => (a.id, a.version)) =
      s.accounts.map (fun a => (a.id, a.version)) ∧
    (processState s c).accounts.map accInfo = s.accounts.map accInfo := by
  have hinfo : (processState s c).accounts.map accInfo = s.accounts.map accInfo := by
    cases hp : (process s c).1 with
    | error e => rw [process_error_state hp]
    | ok v =>
      obtain ⟨s₁, tx⟩ := v
      rw [process_ok_state hp]
      obtain ⟨_, _, _, _, accs', ps, pid', happ, hs₁⟩ := process_ok_elim hp
      subst hs₁
      exact applyEntries_accInfo happ
  refine ⟨?_, hinfo⟩
  have hproj : ∀ l : List Account, l.map (fun a => (a.id, a.version)) =
      (l.map accInfo).map (fun t => (t.1, t.2.2.2.2)) := by
    intro l
    rw [List.map_map]
    rfl
  rw [hproj, hproj, hinfo]

end DinoVentures
